import Mathlib

/-!
Verification of the chained hash table in `src/python/hash_tables.py`.

The table maps string keys to string values.  Each bucket holds a singly
linked chain of `Node` objects; we represent a chain as a `List` of nodes,
head first, so the `next` pointer of a node is its successor in the list.
The Python `size` attribute is an unbounded machine integer that the code
can drive below zero (a successful `remove` always decrements it), so it
is modelled as `Int`.

Two points of the source deserve note:

* the method `hash` is invoked as `self.hash(key)` by `insert`, `find`
  and `remove` but is defined nowhere in the repository; it is modelled
  from the spec (see `HashTable.hash`);
* in `remove`, when the match is the head of its chain (`prev is None`),
  the code executes `node = None`, which rebinds a local variable and
  never writes the bucket slot, so the matched node is still reachable
  afterwards even though `size` was decremented.  The embedding
  reproduces this behaviour exactly (see `chainRemove`).
-/

/-- Constant `INITIAL_CAP = 50` from the source. -/
def INITIAL_CAP : Nat := 50

/-- Class `Node`: a stored key/value pair.  The `next` link of the Python
object is represented by the position of the node in its chain. -/
structure Node where
  key : String
  value : String
deriving DecidableEq

/-- A chain of nodes hanging off one bucket, head first. -/
abbrev Chain := List Node

/-- Class `HashTable`: `capacity`, `size` (a Python integer, which the
code can make negative, hence `Int`) and the bucket array. -/
structure HashTable where
  capacity : Nat
  size : Int
  buckets : List Chain
deriving DecidableEq

/-- Constructor `HashTable.__init__`: capacity `INITIAL_CAP`, size `0`,
and `INITIAL_CAP` empty bucket slots. -/
def HashTable.new : HashTable :=
  { capacity := INITIAL_CAP, size := 0, buckets := List.replicate INITIAL_CAP [] }

/-- Modelled from the spec: the method `hash` is called as `self.hash(key)`
by `insert`, `find` and `remove`, but its definition is absent from the
source.  Spec section 4.1 requires only a deterministic, total function
from strings to an integer in `[0, capacity)` and mandates no specific
algorithm; we model it as the sum of the character codes of the key,
taken modulo the capacity.  Determinism is inherent: it is a pure
function of the key and the (immutable) capacity. -/
def HashTable.hash (t : HashTable) (key : String) : Nat :=
  (key.data.foldl (fun a c => a + c.toNat) 0) % t.capacity

/-- Shape every table built by the constructor has and every operation
preserves: a positive capacity and a bucket array of exactly that
length (the Python list `[None] * self.capacity` is never resized). -/
def HashTable.WF (t : HashTable) : Prop :=
  0 < t.capacity ∧ t.buckets.length = t.capacity

instance (t : HashTable) : Decidable t.WF :=
  inferInstanceAs (Decidable (0 < t.capacity ∧ t.buckets.length = t.capacity))

/-- Method `insert`: increment `size` unconditionally, compute the index,
then either fill the empty bucket slot with a fresh node or walk to the
tail of the chain and hang the fresh node there (`prev.next = Node(key,
value)`); walking to the tail and linking at `prev.next` is appending at
the end of the chain list. -/
def HashTable.insert (t : HashTable) (key value : String) : HashTable :=
  let t1 : HashTable := { t with size := t.size + 1 }
  let index := t1.hash key
  let node := t1.buckets.getD index []
  match node with
  | [] => { t1 with buckets := t1.buckets.set index [Node.mk key value] }
  | _ :: _ => { t1 with buckets := t1.buckets.set index (node ++ [Node.mk key value]) }

/-- The search loop shared by `find` (and the first phase of `remove`):
walk the chain while `node is not None and node.key != key`, then report
the value of the node reached, or the not-found signal `none`. -/
def chainFind (key : String) : Chain → Option String
  | [] => none
  | n :: rest => if n.key = key then some n.value else chainFind key rest

/-- Method `find`: compute the index, walk the chain at that bucket, return
the value of the first node whose key matches, or `none`. -/
def HashTable.find (t : HashTable) (key : String) : Option String :=
  let index := t.hash key
  let node := t.buckets.getD index []
  chainFind key node

/-- State-passing embedding of `find`: the body assigns only to the locals
`index` and `node` and never to an attribute of `self`, so the threaded
table comes back unchanged. -/
def HashTable.findM (t : HashTable) (key : String) : Option String × HashTable :=
  let index := t.hash key
  let node := t.buckets.getD index []
  (chainFind key node, t)

/-- The unlink step of `remove` once past the head: here `prev` is not
`None`, so a match is spliced out by `prev.next = prev.next.next`.
Returns the removed value (if any) and the remainder of the chain. -/
def removeFirst (key : String) : Chain → Option String × Chain
  | [] => (none, [])
  | n :: rest =>
    if n.key = key then (some n.value, rest)
    else
      let p := removeFirst key rest
      (p.1, n :: p.2)

/-- Chain-level effect of `remove`.  A match at the head takes the
`prev is None` branch of the source, which executes `node = None`: that
rebinds a local and writes nothing back to the bucket slot, so the chain
comes back unchanged.  A later match is unlinked by `removeFirst`. -/
def chainRemove (key : String) : Chain → Option String × Chain
  | [] => (none, [])
  | head :: rest =>
    if head.key = key then (some head.value, head :: rest)
    else
      let p := removeFirst key rest
      (p.1, head :: p.2)

/-- Method `remove`: compute the index, walk the chain tracking `prev` and
`node`; on no match return `none` with the table untouched, on a match
decrement `size`, apply the chain-level unlink (which, at the head, leaves
the chain as it was) and return the value of the matched node. -/
def HashTable.remove (t : HashTable) (key : String) : Option String × HashTable :=
  let index := t.hash key
  let p := chainRemove key (t.buckets.getD index [])
  match p.1 with
  | none => (none, t)
  | some v => (some v, { t with size := t.size - 1, buckets := t.buckets.set index p.2 })

/-- Number of `Node` objects reachable from the bucket array. -/
def HashTable.nodeCount (t : HashTable) : Nat :=
  (t.buckets.map List.length).sum

/-- Whether some chain of the table holds a node with the given key. -/
def HashTable.hasKey (t : HashTable) (key : String) : Bool :=
  t.buckets.any fun c => c.any fun n => n.key == key

/-! ## List helper lemmas -/

theorem list_getD_set_self {α : Type} (l : List α) (i : Nat) (x d : α)
    (h : i < l.length) : (l.set i x).getD i d = x := by
  induction l generalizing i with
  | nil => exact absurd h (by simp)
  | cons a l ih =>
    cases i with
    | zero => rfl
    | succ i => exact ih i (Nat.lt_of_succ_lt_succ h)

theorem list_getD_set_ne {α : Type} (l : List α) (i j : Nat) (x d : α)
    (h : i ≠ j) : (l.set i x).getD j d = l.getD j d := by
  induction l generalizing i j with
  | nil => rfl
  | cons a l ih =>
    cases i with
    | zero =>
      cases j with
      | zero => exact absurd rfl h
      | succ j => rfl
    | succ i =>
      cases j with
      | zero => rfl
      | succ j => exact ih i j (fun hij => h (by rw [hij]))

theorem list_set_getD_self {α : Type} (l : List α) (i : Nat) (d : α) :
    l.set i (l.getD i d) = l := by
  induction l generalizing i with
  | nil => rfl
  | cons a l ih =>
    cases i with
    | zero => rfl
    | succ i => simpa using ih i

theorem mem_of_mem_getD {α : Type} (l : List (List α)) (i : Nat) (x : α)
    (h : x ∈ l.getD i []) : ∃ c, c ∈ l ∧ x ∈ c := by
  induction l generalizing i with
  | nil => simp [List.getD] at h
  | cons a l ih =>
    cases i with
    | zero => exact ⟨a, List.mem_cons_self a l, h⟩
    | succ i =>
      obtain ⟨c, hc, hx⟩ := ih i h
      exact ⟨c, List.mem_cons_of_mem a hc, hx⟩

/-! ## Chain-level lemmas -/

theorem chainFind_append_some (key : String) (c : Chain) (n : Node) (v : String)
    (h : chainFind key c = some v) : chainFind key (c ++ [n]) = some v := by
  induction c with
  | nil => simp [chainFind] at h
  | cons m rest ih =>
    by_cases hm : m.key = key
    · simpa [chainFind, hm] using h
    · simp only [chainFind, hm, if_false] at h
      simpa [chainFind, hm] using ih h

theorem chainFind_append_none (key : String) (c : Chain) (n : Node)
    (h : chainFind key c = none) :
    chainFind key (c ++ [n]) = if n.key = key then some n.value else none := by
  induction c with
  | nil => rfl
  | cons m rest ih =>
    by_cases hm : m.key = key
    · simp [chainFind, hm] at h
    · simp only [chainFind, hm, if_false] at h
      simpa [chainFind, hm] using ih h

theorem chainFind_eq_none (key : String) (c : Chain)
    (h : ∀ n ∈ c, n.key ≠ key) : chainFind key c = none := by
  induction c with
  | nil => rfl
  | cons m rest ih =>
    have hm : m.key ≠ key := h m (List.mem_cons_self m rest)
    simp only [chainFind, hm, if_false]
    exact ih fun n hn => h n (List.mem_cons_of_mem m hn)

theorem removeFirst_of_none (key : String) (c : Chain)
    (h : chainFind key c = none) : removeFirst key c = (none, c) := by
  induction c with
  | nil => rfl
  | cons m rest ih =>
    by_cases hm : m.key = key
    · simp [chainFind, hm] at h
    · simp only [chainFind, hm, if_false] at h
      simp [removeFirst, hm, ih h]

theorem chainRemove_of_none (key : String) (c : Chain)
    (h : chainFind key c = none) : chainRemove key c = (none, c) := by
  cases c with
  | nil => rfl
  | cons m rest =>
    by_cases hm : m.key = key
    · simp [chainFind, hm] at h
    · simp only [chainFind, hm, if_false] at h
      simp [chainRemove, hm, removeFirst_of_none key rest h]

/-! ## Table-level helper lemmas -/

theorem hash_congr {t₁ t₂ : HashTable} (h : t₁.capacity = t₂.capacity)
    (key : String) : t₁.hash key = t₂.hash key := by
  simp [HashTable.hash, h]

theorem insert_spec (t : HashTable) (key value : String) :
    (t.insert key value).capacity = t.capacity ∧
    (t.insert key value).size = t.size + 1 ∧
    (t.insert key value).buckets =
      t.buckets.set (t.hash key)
        (t.buckets.getD (t.hash key) [] ++ [Node.mk key value]) := by
  cases h : t.buckets.getD (t.hash key) [] with
  | nil =>
    simp only [HashTable.hash, List.getD, List.get?_eq_getElem?] at h
    simp [HashTable.insert, HashTable.hash, List.getD, h]
  | cons a c =>
    simp only [HashTable.hash, List.getD, List.get?_eq_getElem?] at h
    simp [HashTable.insert, HashTable.hash, List.getD, h]

theorem insert_WF (t : HashTable) (key value : String) (h : t.WF) :
    (t.insert key value).WF := by
  obtain ⟨h1, h2⟩ := h
  refine ⟨?_, ?_⟩
  · rw [(insert_spec t key value).1]; exact h1
  · rw [(insert_spec t key value).2.2, (insert_spec t key value).1]
    simpa using h2

theorem hash_lt_length (t : HashTable) (key : String) (h : t.WF) :
    t.hash key < t.buckets.length := by
  rw [h.2]
  exact Nat.mod_lt _ h.1

theorem find_insert_self (t : HashTable) (k v : String) (hWF : t.WF)
    (h : t.find k = none) : (t.insert k v).find k = some v := by
  have hcap := (insert_spec t k v).1
  have hb := (insert_spec t k v).2.2
  have hhash : (t.insert k v).hash k = t.hash k := hash_congr hcap k
  have hlt : t.hash k < t.buckets.length := hash_lt_length t k hWF
  have hchain : (t.insert k v).buckets.getD ((t.insert k v).hash k) [] =
      t.buckets.getD (t.hash k) [] ++ [Node.mk k v] := by
    rw [hhash, hb, list_getD_set_self _ _ _ _ hlt]
  have hnone : chainFind k (t.buckets.getD (t.hash k) []) = none := h
  show chainFind k ((t.insert k v).buckets.getD ((t.insert k v).hash k) []) = some v
  rw [hchain, chainFind_append_none k _ _ hnone]
  simp

theorem remove_of_none (t : HashTable) (k : String)
    (h : chainFind k (t.buckets.getD (t.hash k) []) = none) :
    t.remove k = (none, t) := by
  simp only [HashTable.remove]
  rw [chainRemove_of_none k _ h]

theorem remove_head_spec (t : HashTable) (k : String) (head : Node) (rest : Chain)
    (hc : t.buckets.getD (t.hash k) [] = head :: rest) (hk : head.key = k) :
    t.remove k = (some head.value, { t with size := t.size - 1 }) := by
  simp only [HashTable.remove, hc]
  simp only [chainRemove, hk, if_pos]
  rw [← hc, list_set_getD_self]

/-! ## Claims -/

/-- Claim C1.  The spec scenario fails on the code: after
`insert("a","1"); insert("a","2")` the first `find` and `remove` do
return `"1"`, but the removed head is never unlinked from the bucket
(the `prev is None` branch of `remove` only rebinds a local), so the
next `find` still returns `"1"` rather than the claimed `"2"`, the
second `remove` returns `"1"` again rather than `"2"`, and the final
`find` still returns `"1"` rather than the not-found signal.  This
theorem evaluates the code on the scenario and records the actual
answers. -/
theorem scenario_duplicate_key_actual :
    ((HashTable.new.insert "a" "1").insert "a" "2").find "a" = some "1" ∧
    ((((HashTable.new.insert "a" "1").insert "a" "2").remove "a").1 = some "1") ∧
    (((((HashTable.new.insert "a" "1").insert "a" "2").remove "a").2).find "a" = some "1") ∧
    ¬ (((((HashTable.new.insert "a" "1").insert "a" "2").remove "a").2).find "a" = some "2") ∧
    (((((((HashTable.new.insert "a" "1").insert "a" "2").remove "a").2)).remove "a").1 = some "1") ∧
    ((((((((HashTable.new.insert "a" "1").insert "a" "2").remove "a").2)).remove "a").2).find "a" = some "1") := by
  decide

/-- Claim C2.  The claim fails on the code: with `"x"` the sole entry in
its bucket, `remove("x")` does return the stored value `"v"`, but the
`prev is None` branch never writes the bucket slot, so the node is still
reachable there and a subsequent `find("x")` still returns `"v"` instead
of the bucket being empty. -/
theorem remove_sole_head_leaves_bucket :
    ((HashTable.new.insert "x" "v").remove "x").1 = some "v" ∧
    (((HashTable.new.insert "x" "v").remove "x").2).buckets.getD
      (HashTable.new.hash "x") [] = [Node.mk "x" "v"] ∧
    (((HashTable.new.insert "x" "v").remove "x").2).find "x" = some "v" := by
  decide

/-- Claim C3, counterexample to the claim as stated: on a table that
already holds an entry for the key, `insert` appends at the tail while
`find` returns the first match in chain order, so after
`insert("a","1"); insert("a","2")` a `find("a")` — with no removal of
`"a"` in between — returns `"1"`, not the just-inserted `"2"`. -/
theorem insert_find_duplicate_cex :
    ((HashTable.new.insert "a" "1").insert "a" "2").find "a" = some "1" ∧
    ¬ ((HashTable.new.insert "a" "1").insert "a" "2").find "a" = some "2" := by
  decide

/-- Claim C3, amended: on a well-formed table currently holding no entry
for `k` (so `find k` reports not-found), after `insert(k, v)` a
subsequent `find(k)` returns `v`. -/
theorem find_insert_of_not_found (t : HashTable) (k v : String) (hWF : t.WF)
    (h : t.find k = none) : (t.insert k v).find k = some v :=
  find_insert_self t k v hWF h

theorem find_insert_of_not_found_witness :
    HashTable.new.WF ∧ HashTable.new.find "a" = none ∧
    (HashTable.new.insert "a" "1").find "a" = some "1" :=
  ⟨by decide, by decide,
    find_insert_of_not_found HashTable.new "a" "1" (by decide) (by decide)⟩

/-- Claim C4.  The size-accounting half of the claim fails against the
reachability half on the code: after `insert("a","1"); remove("a")` the
`size` field is `0` (one insert, one successful remove), but the removed
head was never unlinked, so one `Node` is still reachable from the
bucket array and the two counts disagree. -/
theorem size_vs_reachable_mismatch :
    (((HashTable.new.insert "a" "1").remove "a").2).size = 0 ∧
    (((HashTable.new.insert "a" "1").remove "a").2).nodeCount = 1 := by
  decide

/-- Claim C5.  On a table holding no entry whose key equals `k`, `find`
returns the not-found signal `none`, and `remove` returns `none` and
leaves the entire table state (capacity, size and every bucket)
unchanged. -/
theorem find_remove_absent (t : HashTable) (k : String)
    (h : t.hasKey k = false) :
    t.find k = none ∧ t.remove k = (none, t) := by
  have hforall : ∀ n ∈ t.buckets.getD (t.hash k) [], n.key ≠ k := by
    intro n hn hkey
    obtain ⟨c, hc, hx⟩ := mem_of_mem_getD t.buckets (t.hash k) n hn
    have : t.hasKey k = true := by
      simp only [HashTable.hasKey, List.any_eq_true]
      exact ⟨c, hc, n, hx, by simp [hkey]⟩
    simp [this] at h
  have hnone : chainFind k (t.buckets.getD (t.hash k) []) = none :=
    chainFind_eq_none k _ hforall
  exact ⟨hnone, remove_of_none t k hnone⟩

theorem find_remove_absent_witness :
    HashTable.new.hasKey "a" = false ∧
    (HashTable.new.find "a" = none ∧
      HashTable.new.remove "a" = (none, HashTable.new)) :=
  ⟨by decide, find_remove_absent HashTable.new "a" (by decide)⟩

/-- Claim C6.  Collision correctness: for two distinct keys hashing to
the same bucket index, inserting both into a well-formed table that
holds neither preserves both — `find` retrieves each by comparing keys
along the shared chain, not by position. -/
theorem collision_preserves_both (t : HashTable) (k₁ k₂ v₁ v₂ : String)
    (hWF : t.WF) (hne : k₁ ≠ k₂) (hh : t.hash k₁ = t.hash k₂)
    (h₁ : t.find k₁ = none) (h₂ : t.find k₂ = none) :
    ((t.insert k₁ v₁).insert k₂ v₂).find k₁ = some v₁ ∧
    ((t.insert k₁ v₁).insert k₂ v₂).find k₂ = some v₂ := by
  have hlt : t.hash k₁ < t.buckets.length := hash_lt_length t k₁ hWF
  have hcap₁ := (insert_spec t k₁ v₁).1
  have hb₁ := (insert_spec t k₁ v₁).2.2
  have hchain₁ : (t.insert k₁ v₁).buckets.getD (t.hash k₁) [] =
      t.buckets.getD (t.hash k₁) [] ++ [Node.mk k₁ v₁] := by
    rw [hb₁, list_getD_set_self _ _ _ _ hlt]
  have hlen₁ : (t.insert k₁ v₁).buckets.length = t.buckets.length := by
    rw [hb₁]; simp
  have hcap₂ := (insert_spec (t.insert k₁ v₁) k₂ v₂).1
  have hb₂ := (insert_spec (t.insert k₁ v₁) k₂ v₂).2.2
  have hhash₁ : (t.insert k₁ v₁).hash k₁ = t.hash k₁ := hash_congr hcap₁ k₁
  have hhash₂ : (t.insert k₁ v₁).hash k₂ = t.hash k₁ :=
    (hash_congr hcap₁ k₂).trans hh.symm
  have hchain₂ : ((t.insert k₁ v₁).insert k₂ v₂).buckets.getD (t.hash k₁) [] =
      t.buckets.getD (t.hash k₁) [] ++ [Node.mk k₁ v₁] ++ [Node.mk k₂ v₂] := by
    rw [hb₂, hhash₂, list_getD_set_self _ _ _ _ (by rw [hlen₁]; exact hlt), hchain₁]
  have hhash₁' : ((t.insert k₁ v₁).insert k₂ v₂).hash k₁ = t.hash k₁ :=
    (hash_congr hcap₂ k₁).trans hhash₁
  have hhash₂' : ((t.insert k₁ v₁).insert k₂ v₂).hash k₂ = t.hash k₁ :=
    (hash_congr hcap₂ k₂).trans hhash₂
  have hn₁ : chainFind k₁ (t.buckets.getD (t.hash k₁) []) = none := h₁
  have hn₂ : chainFind k₂ (t.buckets.getD (t.hash k₁) []) = none := by
    have : chainFind k₂ (t.buckets.getD (t.hash k₂) []) = none := h₂
    rwa [← hh] at this
  constructor
  · show chainFind k₁ (((t.insert k₁ v₁).insert k₂ v₂).buckets.getD
      (((t.insert k₁ v₁).insert k₂ v₂).hash k₁) []) = some v₁
    rw [hhash₁', hchain₂]
    exact chainFind_append_some k₁ _ _ v₁
      (by rw [chainFind_append_none k₁ _ _ hn₁]; simp)
  · show chainFind k₂ (((t.insert k₁ v₁).insert k₂ v₂).buckets.getD
      (((t.insert k₁ v₁).insert k₂ v₂).hash k₂) []) = some v₂
    rw [hhash₂', hchain₂]
    have hmid : chainFind k₂ (t.buckets.getD (t.hash k₁) [] ++ [Node.mk k₁ v₁]) = none := by
      rw [chainFind_append_none k₂ _ _ hn₂]
      simp [hne]
    rw [chainFind_append_none k₂ _ _ hmid]
    simp

theorem collision_preserves_both_witness :
    HashTable.new.WF ∧ "ab" ≠ "ba" ∧
    HashTable.new.hash "ab" = HashTable.new.hash "ba" ∧
    HashTable.new.find "ab" = none ∧ HashTable.new.find "ba" = none ∧
    (((HashTable.new.insert "ab" "v1").insert "ba" "v2").find "ab" = some "v1" ∧
      ((HashTable.new.insert "ab" "v1").insert "ba" "v2").find "ba" = some "v2") :=
  ⟨by decide, by decide, by decide, by decide, by decide,
    collision_preserves_both HashTable.new "ab" "ba" "v1" "v2"
      (by decide) (by decide) (by decide) (by decide) (by decide)⟩

/-- Claim C7.  The modelled hash function (the method is called in the
source but defined nowhere in the repository; see `HashTable.hash`) is a
total function of the key and the capacity — determinism is inherent in
it being a pure function — and its result lies below the capacity
whenever the capacity is positive, as it is for every constructed
table. -/
theorem hash_lt_capacity (t : HashTable) (key : String)
    (h : 0 < t.capacity) : t.hash key < t.capacity :=
  Nat.mod_lt _ h

theorem hash_lt_capacity_witness :
    0 < HashTable.new.capacity ∧ HashTable.new.hash "a" < HashTable.new.capacity :=
  ⟨by decide, hash_lt_capacity HashTable.new "a" (by decide)⟩

/-- Claim C8.  For every table state and key/value pair, `insert`
succeeds (the embedding is a total function): the capacity is untouched,
`size` grows by exactly one, and the bucket array changes only at the
computed index, where exactly one new node carrying the pair is appended
at the tail of the chain (alone in the slot when the bucket was empty,
since the empty chain appends to itself trivially). -/
theorem insert_effect (t : HashTable) (key value : String) :
    (t.insert key value).capacity = t.capacity ∧
    (t.insert key value).size = t.size + 1 ∧
    (t.insert key value).buckets =
      t.buckets.set (t.hash key)
        (t.buckets.getD (t.hash key) [] ++ [Node.mk key value]) :=
  insert_spec t key value

/-- Claim C9.  `find` is read-only: its body assigns only to the locals
`index` and `node`, never to an attribute of `self`, so the state-passing
embedding `findM` returns the table unchanged — same capacity, size,
bucket array and chains — while computing exactly the value `find`
reports. -/
theorem findM_read_only (t : HashTable) (key : String) :
    (t.findM key).2 = t ∧ (t.findM key).1 = t.find key :=
  ⟨rfl, rfl⟩

/-- Claim C10.  Implicit behaviour of the head branch of `remove`: when
the first matching node is the head of its chain (`prev is None`), the
call returns its value and decrements `size`, but the bucket array is
left identical — the node is still reachable — and a subsequent `find`
of the same key returns the very same value again. -/
theorem remove_head_keeps_entry (t : HashTable) (k : String)
    (head : Node) (rest : Chain)
    (hc : t.buckets.getD (t.hash k) [] = head :: rest) (hk : head.key = k) :
    (t.remove k).1 = some head.value ∧
    (t.remove k).2.size = t.size - 1 ∧
    (t.remove k).2.buckets = t.buckets ∧
    (t.remove k).2.find k = some head.value := by
  have hspec := remove_head_spec t k head rest hc hk
  rw [hspec]
  refine ⟨rfl, rfl, rfl, ?_⟩
  show chainFind k (t.buckets.getD (t.hash k) []) = some head.value
  rw [hc]
  simp [chainFind, hk]

theorem remove_head_keeps_entry_witness :
    (HashTable.new.insert "a" "1").buckets.getD
      ((HashTable.new.insert "a" "1").hash "a") [] = [Node.mk "a" "1"] ∧
    (Node.mk "a" "1").key = "a" ∧
    (((HashTable.new.insert "a" "1").remove "a").1 = some "1" ∧
      ((HashTable.new.insert "a" "1").remove "a").2.size =
        (HashTable.new.insert "a" "1").size - 1 ∧
      ((HashTable.new.insert "a" "1").remove "a").2.buckets =
        (HashTable.new.insert "a" "1").buckets ∧
      ((HashTable.new.insert "a" "1").remove "a").2.find "a" = some "1") :=
  ⟨by decide, by decide,
    remove_head_keeps_entry (HashTable.new.insert "a" "1") "a"
      (Node.mk "a" "1") [] (by decide) (by decide)⟩
